import Mathlib

/-!
Shallow embedding of the cyclegg proof engine (`src/goal.rs`) for
specification checking.

Terms are the e-graph language `SymbolLang`: an operator symbol with a list
of child terms.  Class ids of the external e-graph library are represented
by terms: the id of a term is the term itself, and `find` maps a term to
the canonical representative of its equivalence class.
-/

namespace Cyclegg

abbrev Symbol := String

/-- An e-graph term (egg's `SymbolLang`): operator symbol plus children. -/
inductive Expr where
  | node (op : String) (args : List Expr)
deriving Repr

mutual

def Expr.decEq : (a b : Expr) → Decidable (a = b)
  | .node o1 as1, .node o2 as2 =>
    match String.decEq o1 o2 with
    | Decidable.isFalse h => Decidable.isFalse (by intro e; cases e; exact h rfl)
    | Decidable.isTrue ho =>
      match Expr.decEqList as1 as2 with
      | Decidable.isTrue hl => Decidable.isTrue (by rw [ho, hl])
      | Decidable.isFalse hl => Decidable.isFalse (by intro e; cases e; exact hl rfl)

def Expr.decEqList : (l1 l2 : List Expr) → Decidable (l1 = l2)
  | [], [] => Decidable.isTrue rfl
  | [], _ :: _ => Decidable.isFalse (by intro e; cases e)
  | _ :: _, [] => Decidable.isFalse (by intro e; cases e)
  | a :: as, b :: bs =>
    match Expr.decEq a b with
    | Decidable.isFalse h => Decidable.isFalse (by intro e; cases e; exact h rfl)
    | Decidable.isTrue h =>
      match Expr.decEqList as bs with
      | Decidable.isTrue hl => Decidable.isTrue (by rw [h, hl])
      | Decidable.isFalse hl => Decidable.isFalse (by intro e; cases e; exact hl rfl)

end

instance : DecidableEq Expr := Expr.decEq

def Expr.leaf (s : String) : Expr := .node s []

def Expr.op : Expr → String
  | .node o _ => o

def Expr.args : Expr → List Expr
  | .node _ as => as

mutual

/-- Rendering of a term as an s-expression, as egg's `Display` does;
used by `SmallerVar` via `Expr::to_string`.  A leaf prints as its symbol. -/
def Expr.toStr : Expr → String
  | .node o args =>
    match args with
    | [] => o
    | _ :: _ => "(" ++ o ++ Expr.toStrList args ++ ")"

def Expr.toStrList : List Expr → String
  | [] => ""
  | a :: as => " " ++ Expr.toStr a ++ Expr.toStrList as

end

mutual

/-- AST size cost function (egg's `AstSize`): number of nodes of a term. -/
def Expr.size : Expr → Nat
  | .node _ args => 1 + Expr.sizeList args

def Expr.sizeList : List Expr → Nat
  | [] => 0
  | a :: as => Expr.size a + Expr.sizeList as

end

/-- Is the first character list a prefix of the second?  (A
kernel-computable replacement for the string prefix test.) -/
def charsPrefixOf : List Char → List Char → Bool
  | [], _ => true
  | _ :: _, [] => false
  | a :: as, b :: bs => a = b && charsPrefixOf as bs

def strPrefixOf (p s : String) : Bool := charsPrefixOf p.toList s.toList

/-- Decimal digit characters, used to render numbers in fresh-variable names. -/
def digitChar (d : Nat) : Char :=
  match d with
  | 0 => '0' | 1 => '1' | 2 => '2' | 3 => '3' | 4 => '4'
  | 5 => '5' | 6 => '6' | 7 => '7' | 8 => '8' | _ => '9'

def charDigit (c : Char) : Nat :=
  if c = '0' then 0 else if c = '1' then 1 else if c = '2' then 2
  else if c = '3' then 3 else if c = '4' then 4 else if c = '5' then 5
  else if c = '6' then 6 else if c = '7' then 7 else if c = '8' then 8 else 9

/-- Little-endian decimal digits of a positive number (empty for 0);
the first argument is fuel, instantiated with the number itself. -/
def natDigitsAux : Nat → Nat → List Nat
  | 0, _ => []
  | f + 1, n => if n = 0 then [] else n % 10 :: natDigitsAux f (n / 10)

def natDigits (n : Nat) : List Nat :=
  if n = 0 then [0] else natDigitsAux n n

/-- Decimal rendering of a natural number, modelling Rust's `Display` for
`usize` as used in `format!` when building fresh-variable names. -/
def natToStr (n : Nat) : String :=
  List.asString (((natDigits n).reverse).map digitChar)

/-- Modelled from the spec (the repository's `ast.rs` is not under `src/`):
the depth of a variable is the number of hyphen characters in its name
(spec section 6, naming conventions). -/
def var_depth (s : String) : Nat := s.toList.count '-'

/-- Modelled from the spec (the repository's `ast.rs` is not under `src/`):
`is_descendant child anc` holds iff the name of `child` has the name of
`anc` as a prefix followed by a hyphen-delimited trace (spec section 6). -/
def is_descendant (child anc : String) : Bool := strPrefixOf (anc ++ "-") child

/-- The special scrutinee name signalling that the case-split bound has
been exceeded (`BOUND_EXCEEDED` in the source). -/
def BOUND_EXCEEDED : Symbol := "__"

/-- Modelled from the spec (the repository's `config.rs` is not under
`src/`): the maximum case-split depth, with the spec's recommended value 2. -/
def maxSplitDepth : Nat := 2

def TRUE : Symbol := "true"
def FALSE : Symbol := "false"
def ITE : Symbol := "ite"

/-- Types: a datatype reference or a function type (spec section 3). -/
inductive Ty where
  | data (name : String)
  | fn (params : List Ty) (ret : Ty)

mutual

def Ty.decEq : (a b : Ty) → Decidable (a = b)
  | .data n1, .data n2 =>
    match String.decEq n1 n2 with
    | Decidable.isTrue h => Decidable.isTrue (by rw [h])
    | Decidable.isFalse h => Decidable.isFalse (by intro e; cases e; exact h rfl)
  | .data _, .fn _ _ => Decidable.isFalse (by intro e; cases e)
  | .fn _ _, .data _ => Decidable.isFalse (by intro e; cases e)
  | .fn p1 r1, .fn p2 r2 =>
    match Ty.decEqList p1 p2 with
    | Decidable.isFalse h => Decidable.isFalse (by intro e; cases e; exact h rfl)
    | Decidable.isTrue h =>
      match Ty.decEq r1 r2 with
      | Decidable.isTrue hr => Decidable.isTrue (by rw [h, hr])
      | Decidable.isFalse hr => Decidable.isFalse (by intro e; cases e; exact hr rfl)

def Ty.decEqList : (l1 l2 : List Ty) → Decidable (l1 = l2)
  | [], [] => Decidable.isTrue rfl
  | [], _ :: _ => Decidable.isFalse (by intro e; cases e)
  | _ :: _, [] => Decidable.isFalse (by intro e; cases e)
  | a :: as, b :: bs =>
    match Ty.decEq a b with
    | Decidable.isFalse h => Decidable.isFalse (by intro e; cases e; exact h rfl)
    | Decidable.isTrue h =>
      match Ty.decEqList as bs with
      | Decidable.isTrue hl => Decidable.isTrue (by rw [h, hl])
      | Decidable.isFalse hl => Decidable.isFalse (by intro e; cases e; exact hl rfl)

end

instance : DecidableEq Ty := Ty.decEq

/-- `Type::datatype()`: the head datatype name when the type is not a
function type (`Err`, i.e. `none`, on function types). -/
def Ty.datatype : Ty → Option String
  | .data n => some n
  | .fn _ _ => none

/-- `Type::args()`: the parameter-type list of a function type
(a nullary constructor's type is a plain datatype and has no parameters). -/
def Ty.argTys : Ty → List Ty
  | .data _ => []
  | .fn ps _ => ps

/-- The Boolean type (`BOOL_TYPE` parsed). -/
def boolTy : Ty := Ty.data "Bool"

/-- Contexts map symbols to types (HashMap modelled as an association list
where insertion overwrites). -/
abbrev Context := List (Symbol × Ty)

def Context.remove (ctx : Context) (k : Symbol) : Context :=
  ctx.filter (fun p => p.1 ≠ k)

def Context.insert (ctx : Context) (k : Symbol) (v : Ty) : Context :=
  (k, v) :: Context.remove ctx k

def Context.get (ctx : Context) (k : Symbol) : Option Ty := ctx.lookup k

/-- The environment maps datatype names to their constructor lists. -/
abbrev Env := List (String × List Symbol)

def Env.get (env : Env) (k : String) : Option (List Symbol) := env.lookup k

/-!
The e-graph (external library `egg`, treated as a collaborator): modelled
as the list of e-nodes added so far (`nodes`, the hashcons) together with
the list of union operations performed (`unions`).  A class id is
represented by a term; `find` computes the canonical representative by
replaying the unions.  Congruence closure (`rebuild`) is not modelled:
none of the verified claims depends on merges induced by congruence.
-/

structure EGraph where
  nodes : List Expr
  unions : List (Expr × Expr)
deriving DecidableEq, Repr

def EGraph.empty : EGraph := ⟨[], []⟩

/-- One union step of the replayed union-find: redirect the class of `p.1`
to the class of `p.2`. -/
def ufStep (f : Expr → Expr) (p : Expr × Expr) : Expr → Expr :=
  fun x => if f x = f p.1 then f p.2 else f x

def findFun (prs : List (Expr × Expr)) : Expr → Expr := prs.foldl ufStep id

/-- Canonical representative of the class of `x`. -/
def EGraph.find (g : EGraph) (x : Expr) : Expr := findFun g.unions x

def EGraph.eqv (g : EGraph) (a b : Expr) : Bool := decide (g.find a = g.find b)

/-- Union two classes.  As in egg, a union of already-equal classes is a
no-op. -/
def EGraph.union (g : EGraph) (a b : Expr) : EGraph :=
  if g.find a = g.find b then g else { g with unions := g.unions ++ [(a, b)] }

/-- Insert a single e-node (hashcons: duplicates are shared). -/
def EGraph.addNode (g : EGraph) (e : Expr) : EGraph :=
  if e ∈ g.nodes then g else { g with nodes := g.nodes ++ [e] }

mutual

/-- `add_expr`: insert a term together with all of its subterms. -/
def EGraph.addExpr (g : EGraph) : Expr → EGraph
  | .node op args => (EGraph.addExprList g args).addNode (.node op args)

def EGraph.addExprList (g : EGraph) : List Expr → EGraph
  | [] => g
  | e :: es => EGraph.addExprList (EGraph.addExpr g e) es

end

/-- `lookup_expr` / `lookup`: the class id of a term already in the
e-graph (`none` when absent, where the source would get `None` and any
`unwrap` would panic). -/
def EGraph.lookupExpr (g : EGraph) (e : Expr) : Option Expr :=
  if e ∈ g.nodes then some e else none

/-- `total_size`: the number of e-nodes in the e-graph. -/
def EGraph.totalSize (g : EGraph) : Nat := g.nodes.length

/-- `rebuild`: restores congruence in egg; congruence closure is not
modelled, so this is the identity here. -/
def EGraph.rebuild (g : EGraph) : EGraph := g

/-- Modelled from the spec (section 6; the repository's `egraph.rs` is not
under `src/`): `remove_node` erases one specific e-node from the e-graph
without undoing any unions. -/
def EGraph.removeNode (g : EGraph) (e : Expr) : EGraph :=
  { g with nodes := g.nodes.filter (fun n => n ≠ e) }

/-- The e-nodes belonging to the class of `c`. -/
def EGraph.classNodes (g : EGraph) (c : Expr) : List Expr :=
  g.nodes.filter (fun n => g.find n = g.find c)

def pickMin (cost : Expr → Nat) : List Expr → Option Expr
  | [] => none
  | e :: es =>
    match pickMin cost es with
    | none => some e
    | some b => if cost e ≤ cost b then some e else some b

/-- `Extractor::find_best` with the `AstSize` cost function: a
minimum-size member of the class of `c` (the id itself if the class has
no stored node). -/
def EGraph.extractBest (g : EGraph) (c : Expr) : Expr :=
  match pickMin Expr.size (g.classNodes c) with
  | some e => e
  | none => c

/-- Modelled from the spec (the repository's `ast.rs` is not under
`src/`): the wildcard sigil is prepended to a variable name to obtain the
corresponding pattern variable. -/
def toWildcard (s : Symbol) : String := "?" ++ s

/-- The loop body of `SmallerVar::smaller_tuple`, with the
`has_strictly_smaller` flag as accumulator; an early `return false` when a
component is neither strictly smaller nor equal. -/
def smallerTupleAux : Bool → List (Symbol × Expr) → Bool
  | acc, [] => acc
  | acc, (v, e) :: rest =>
    if is_descendant e.toStr v then smallerTupleAux true rest
    else if e.toStr ≠ v then false
    else smallerTupleAux acc rest

/-- `SmallerVar::smaller_tuple`: is the range of the substitution smaller
than its domain, compared as a tuple? -/
def smallerTuple (subst : List (Symbol × Expr)) : Bool :=
  smallerTupleAux false subst

/-- `SmallerVar::check` (`Condition` impl): look up every scrutinee's
wildcard in the substitution (some may be unbound when the lemma has fewer
parameters), extract the best expression of each bound class, and test the
smaller-tuple condition.  The substitution maps pattern variables to class
ids. -/
def SmallerVar.check (scruts : List Symbol) (g : EGraph)
    (subst : String → Option Expr) : Bool :=
  let pairs := scruts.filterMap
    (fun v => (subst (toWildcard v)).map (fun id => (v, g.extractBest id)))
  smallerTuple pairs

/-!
Patterns and e-matching.  A pattern is a term whose wildcard leaves are
symbols carrying the `?` sigil.  Matching is done modulo the e-graph's
equivalence: a non-wildcard pattern node matches a class when some e-node
of that class has the same operator and matching children.
-/

def isWildcardSym (s : String) : Bool := charsPrefixOf ['?'] s.toList

mutual

/-- Modelled from the spec (section 4.4; the repository's `ast.rs` is not
under `src/`): `to_pattern` replaces every occurrence of a symbol
recognised by `isVar` (a universally-quantified variable, which is a
nullary leaf) by a wildcard of the same name. -/
def toPattern (isVar : String → Bool) : Expr → Expr
  | .node op args =>
    match args with
    | [] => if isVar op then .node (toWildcard op) [] else .node op []
    | _ :: _ => .node op (toPatternList isVar args)

def toPatternList (isVar : String → Bool) : List Expr → List Expr
  | [] => []
  | a :: as => toPattern isVar a :: toPatternList isVar as

end

mutual

/-- The wildcard names occurring in a pattern (`Pattern::vars`). -/
def patVars : Expr → List String
  | .node op args =>
      (if isWildcardSym op then [op] else []) ++ patVarsList args

def patVarsList : List Expr → List String
  | [] => []
  | a :: as => patVars a ++ patVarsList as

end

/-- A substitution binds wildcard names to class ids. -/
abbrev Subst := List (String × Expr)

mutual

/-- Match a pattern against the class of `c`, extending substitution `σ`.
The fuel argument only serves the termination checker: every recursive
call strictly decreases it, and the wrapper `matchPat` below supplies fuel
dominating the recursion depth (which is bounded by the pattern size and
the number of e-nodes), so it is never exhausted. -/
def matchGo : Nat → EGraph → Expr → Expr → Subst → Option Subst
  | 0, _, _, _, _ => none
  | fuel + 1, g, p, c, σ =>
    match p with
    | .node po pargs =>
      if isWildcardSym po then
        match σ.lookup po with
        | some e => if g.eqv e c then some σ else none
        | none => some ((po, g.find c) :: σ)
      else matchTry fuel g po pargs σ (g.classNodes c)

/-- Try the e-nodes of a class in order against a non-wildcard pattern. -/
def matchTry : Nat → EGraph → String → List Expr → Subst → List Expr →
    Option Subst
  | 0, _, _, _, _, _ => none
  | fuel + 1, g, po, pargs, σ, ns =>
    match ns with
    | [] => none
    | n :: rest =>
      match (if n.op = po then matchArgs fuel g pargs n.args σ else none) with
      | some r => some r
      | none => matchTry fuel g po pargs σ rest

/-- Match pattern children against the children of an e-node pairwise. -/
def matchArgs : Nat → EGraph → List Expr → List Expr → Subst → Option Subst
  | 0, _, _, _, _ => none
  | fuel + 1, g, ps, cs, σ =>
    match ps, cs with
    | [], [] => some σ
    | p :: ps2, c :: cs2 =>
      match matchGo fuel g p c σ with
      | none => none
      | some σ2 => matchArgs fuel g ps2 cs2 σ2
    | _, _ => none

end

/-- Entry point of e-matching, with sufficient fuel. -/
def matchPat (g : EGraph) (p : Expr) (c : Expr) (σ : Subst) : Option Subst :=
  matchGo ((Expr.size p + 2) * (g.totalSize + Expr.size p + 4)) g p c σ

mutual

/-- Instantiate a pattern under a substitution (an unbound wildcard is
left in place; checked rewrites never hit that case). -/
def instPat (σ : Subst) : Expr → Expr
  | .node op args =>
    if isWildcardSym op then (σ.lookup op).getD (.node op args)
    else .node op (instPatList σ args)

def instPatList (σ : Subst) : List Expr → List Expr
  | [] => []
  | a :: as => instPat σ a :: instPatList σ as

end

/-- A rewrite: searcher and applier patterns plus the optional
`SmallerVar` side condition (the scrutinee tuple captured at synthesis
time).  Initial rewrites from function definitions are unconditional. -/
structure Rw where
  name : String
  searcher : Expr
  applier : Expr
  cond : Option (List Symbol)
deriving DecidableEq

def condHolds (g : EGraph) (σ : Subst) : Option (List Symbol) → Bool
  | none => true
  | some scruts => SmallerVar.check scruts g (fun v => σ.lookup v)

/-- Apply one match of a rewrite: add the instantiated right-hand side and
union it with the matched class, subject to the side condition evaluated
at application time. -/
def applyRwStep (rw : Rw) (acc : EGraph) (tm : Expr × Subst) : EGraph :=
  if condHolds acc tm.2 rw.cond then
    (acc.addExpr (instPat tm.2 rw.applier)).union tm.1 (instPat tm.2 rw.applier)
  else acc

/-- Apply one rewrite everywhere in the e-graph: matches are collected on
the current snapshot (as egg's runner does in its search phase), then each
match is applied in turn. -/
def applyRw (g : EGraph) (rw : Rw) : EGraph :=
  (g.nodes.filterMap
    (fun t => (matchPat g rw.searcher t []).map (fun σ => (t, σ)))).foldl
    (applyRwStep rw) g

def saturateStep (g : EGraph) (rws : List Rw) : EGraph :=
  rws.foldl applyRw g

/-- egg's default runner iteration limit. -/
def runnerIterLimit : Nat := 30

/-- The saturation runner (`Runner::default().run`): a fixed-point loop
applying every rewrite each iteration, stopping when an iteration makes no
progress (egg's `Saturated` stop condition) or the iteration limit is
hit. -/
def runner : Nat → List Rw → EGraph → EGraph
  | 0, _, g => g
  | n + 1, rws, g =>
    let g2 := saturateStep g rws
    if g2 = g then g else runner n rws g2

/-- Proof goal (`struct Goal`). -/
structure Goal where
  name : String
  egraph : EGraph
  rewrites : List Rw
  local_context : Context
  scrutinees : List Symbol
  lhs_id : Expr
  rhs_id : Expr
  env : Env
  global_context : Context
deriving DecidableEq

/-- `Goal::add_scrutinee`: add `var` as a scrutinee if its type is a
datatype known to the environment; when the depth bound is exceeded, push
the sentinel instead.  Scrutinees are pushed at the back of the queue. -/
def Goal.add_scrutinee (g : Goal) (var : Symbol) (ty : Ty) (depth : Nat) : Goal :=
  match ty.datatype with
  | none => g
  | some dt =>
    if (g.env.get dt).isSome then
      if depth < maxSplitDepth then
        { g with scrutinees := g.scrutinees ++ [var] }
      else
        { g with scrutinees := g.scrutinees ++ [BOUND_EXCEEDED] }
    else g

/-- `Goal::top`: seed the e-graph with both sides, record their class ids
(a term freshly added is its own id here), then install the parameters in
the local context and the scrutinee queue (at depth 0). -/
def Goal.top (name : String) (lhs rhs : Expr) (params : List (Symbol × Ty))
    (env : Env) (global_context : Context) (rewrites : List Rw) : Goal :=
  let eg := ((EGraph.empty.addExpr lhs).addExpr rhs).rebuild
  let base : Goal :=
    { name, egraph := eg, rewrites, local_context := [], scrutinees := [],
      lhs_id := lhs, rhs_id := rhs, env, global_context }
  params.foldl (fun g p =>
    let g1 := g.add_scrutinee p.1 p.2 0
    { g1 with local_context := g1.local_context.insert p.1 p.2 }) base

/-- `Goal::done`: have we proven lhs == rhs? -/
def Goal.done (g : Goal) : Bool :=
  decide (g.egraph.find g.lhs_id = g.egraph.find g.rhs_id)

/-- `Goal::saturate`: run every available rewrite to (bounded) fixpoint. -/
def Goal.saturate (g : Goal) : Goal :=
  { g with egraph := runner runnerIterLimit g.rewrites g.egraph }

def Goal.get_lhs (g : Goal) : Expr := g.egraph.extractBest g.lhs_id

def Goal.get_rhs (g : Goal) : Expr := g.egraph.extractBest g.rhs_id

/-- Modelled from the spec (section 4.1; the repository's `egraph.rs` is
not under `src/`): `get_all_expressions` enumerates a bounded set of
distinct terms of a class; here, the e-nodes stored in the class. -/
def get_all_expressions (g : EGraph) (c : Expr) : List Expr :=
  g.classNodes c

/-- `Goal::mk_lemma_rewrites`: for every pair of terms from the two goal
sides' classes, build patterns by replacing local-context variables with
wildcards and emit a conditional rewrite in whichever direction introduces
no extra wildcards, guarded by `SmallerVar` over the current scrutinees. -/
def Goal.mk_lemma_rewrites (g : Goal) : List Rw :=
  let lhsId := g.egraph.find g.lhs_id
  let rhsId := g.egraph.find g.rhs_id
  let lhsExprs := get_all_expressions g.egraph lhsId
  let rhsExprs := get_all_expressions g.egraph rhsId
  let isVar := fun v => (Context.get g.local_context v).isSome
  (lhsExprs.map (fun le =>
    rhsExprs.filterMap (fun re =>
      let nm := "lemma-" ++ le.toStr ++ "=" ++ re.toStr
      let pl := toPattern isVar le
      let pr := toPattern isVar re
      if (patVars pr).all (fun x => (patVars pl).contains x) then
        some { name := nm, searcher := pl, applier := pr,
               cond := some g.scrutinees }
      else if (patVars pl).all (fun x => (patVars pr).contains x) then
        some { name := nm, searcher := pr, applier := pl,
               cond := some g.scrutinees }
      else none))).flatten

/-!
Conditional splitter (`Goal::split_ite`).
-/

/-- The guard class ids of all matches of the pattern `(ite ?g ?x ?y)`:
one per `ite` e-node with three children, canonicalized by `find`. -/
def Goal.iteGuardIds (g : Goal) : List Expr :=
  g.egraph.nodes.filterMap (fun n =>
    match n with
    | .node op [gd, _, _] => if op = ITE then some (g.egraph.find gd) else none
    | _ => none)

/-- The reducible symbols: current scrutinees chained with the Boolean
constants. -/
def Goal.reducibleSyms (g : Goal) : List Symbol :=
  g.scrutinees ++ [TRUE, FALSE]

/-- A guard class is reducible when some reducible symbol occurs among the
root symbols of the e-nodes in that class. -/
def Goal.guardReducible (g : Goal) (gid : Expr) : Bool :=
  g.reducibleSyms.any
    (fun s => ((g.egraph.classNodes gid).map Expr.op).contains s)

/-- The set of irreducible guard classes (the source collects them in a
`HashSet`; here a deduplicated list — iteration order of the set is
unspecified in the source). -/
def Goal.irreducibleGuards (g : Goal) : List Expr :=
  (g.iteGuardIds.filter (fun gid => ¬ g.guardReducible gid)).dedup

/-- The fresh Boolean variable minted for a guard class: `g-<class_id>`
(class ids are represented by canonical terms here, numeric ids in egg). -/
def guardName (gid : Expr) : String := "g-" ++ gid.toStr

/-- The treatment of one irreducible guard class in `split_ite`: mint the
fresh Boolean variable, insert it into the local context with type `Bool`,
push it to the front of the scrutinee queue, add its leaf to the e-graph
and union it with the guard class. -/
def splitIteStep (acc : Goal) (gid : Expr) : Goal :=
  let fresh := guardName gid
  let eg1 := acc.egraph.addNode (Expr.leaf fresh)
  let eg2 := eg1.union gid (eg1.find (Expr.leaf fresh))
  { acc with
    local_context := acc.local_context.insert fresh boolTy,
    scrutinees := fresh :: acc.scrutinees,
    egraph := eg2 }

/-- `Goal::split_ite`: apply `splitIteStep` to every irreducible guard
class; rebuild at the end. -/
def Goal.split_ite (g : Goal) : Goal :=
  let g2 := g.irreducibleGuards.foldl splitIteStep g
  { g2 with egraph := g2.egraph.rebuild }

/-!
Case splitter (`Goal::case_split`).
-/

/-- The name of the `i`-th fresh variable minted when case-splitting on
`var` with an e-graph of total size `size`:
`format!("{}-{}{}", var, size, i)`. -/
def freshVarName (var : Symbol) (size i : Nat) : String :=
  var ++ "-" ++ natToStr size ++ natToStr i

/-- One step of the fresh-variable loop of the case split: insert the
fresh variable into the local context, then add it as a scrutinee with the
depth read off its name. -/
def addConArgStep (acc : Goal) (p : Symbol × Ty) : Goal :=
  let acc2 := { acc with local_context := acc.local_context.insert p.1 p.2 }
  acc2.add_scrutinee p.1 p.2 (var_depth p.1)

/-- The child goal built for one constructor `con` inside the case-split
loop.  `g` is the parent with the split variable already popped from the
scrutinee queue; `lemmas` were synthesized from the parent before the
pop.  `none` models a panicking `unwrap` (unknown constructor). -/
def Goal.caseSplitChild (g : Goal) (lemmas : List Rw) (var : Symbol)
    (varId : Expr) (con : Symbol) : Option Goal :=
  match Context.get g.global_context con with
  | none => none
  | some conTy =>
    let conArgs := conTy.argTys
    let base : Goal :=
      { g with name := if g.name = "top" then "" else g.name ++ ":" }
    let size := g.egraph.totalSize
    let freshVars := (List.range conArgs.length).map
      (fun i => freshVarName var size i)
    let withVars := (List.zip freshVars conArgs).foldl addConArgStep base
    let conApp : Expr := Expr.node con (freshVars.map Expr.leaf)
    let named := { withVars with
      name := withVars.name ++ var ++ "=" ++ conApp.toStr }
    let eg1 := named.egraph.addExpr conApp
    let eg2 := (eg1.union varId conApp).rebuild
    let eg3 := eg2.removeNode (Expr.leaf var)
    some { named with
      egraph := eg3,
      local_context := named.local_context.remove var,
      rewrites := if freshVars.isEmpty then named.rewrites
                  else named.rewrites ++ lemmas }

/-- Build the children for the constructor list.  The source iterates the
constructors in reverse order, pushing each child onto the proof-state
stack, so the first constructor's child ends on top; with the head of a
list as the top of the stack this is a map in constructor order. -/
def childrenFor (g : Goal) (lemmas : List Rw) (var : Symbol) (varId : Expr) :
    List Symbol → Option (List Goal)
  | [] => some []
  | con :: cs =>
    match g.caseSplitChild lemmas var varId con with
    | none => none
    | some child => (childrenFor g lemmas var varId cs).map (fun l => child :: l)

/-- `Goal::case_split`: synthesize lemmas from the current goal, pop the
front scrutinee, and produce one child per constructor of its datatype.
`none` models a panicking `unwrap` on any failed lookup. -/
def Goal.case_split (g : Goal) : Option (List Goal) :=
  let lemmas := g.mk_lemma_rewrites
  match g.scrutinees with
  | [] => none
  | var :: rest =>
    match g.egraph.lookupExpr (Expr.leaf var) with
    | none => none
    | some varId =>
      match Context.get g.local_context var with
      | none => none
      | some ty =>
        match ty.datatype with
        | none => none
        | some dt =>
          match Env.get g.env dt with
          | none => none
          | some cons =>
            childrenFor { g with scrutinees := rest } lemmas var varId cons

/-!
Prover driver (`prove`).
-/

inductive Outcome where
  | valid
  | invalid
  | unknown
deriving DecidableEq, Repr

/-- The result of a bounded run of the driver: a returned `Outcome`, a
panic of an `unwrap` inside `case_split`, or fuel exhaustion (the source
loop carries no fuel; fuel only bounds the number of loop iterations we
replay, and a returned outcome is exact). -/
inductive ProveResult where
  | outcome (o : Outcome)
  | panic
  | outOfFuel
deriving DecidableEq, Repr

/-- The `prove` work-stack loop: pop a subgoal (head of the list = top of
the stack), saturate, discharge or split.  The `save_graphs` diagnostic
branch is configuration-off and omitted. -/
def prove_fuel : Nat → List Goal → ProveResult
  | 0, _ => .outOfFuel
  | _ + 1, [] => .outcome .valid
  | n + 1, g :: rest =>
    let g1 := g.saturate
    if g1.done then prove_fuel n rest
    else
      let g2 := g1.split_ite
      if g2.scrutinees.isEmpty then .outcome .invalid
      else if g2.scrutinees.head? = some BOUND_EXCEEDED then .outcome .unknown
      else
        match g2.case_split with
        | none => .panic
        | some children => prove_fuel n (children ++ rest)

/-- Instrumented copy of `prove_fuel` that also reports the subgoal being
processed at an early (invalid/unknown/panic) return. -/
def prove_fuel_aux : Nat → List Goal → ProveResult × Option Goal
  | 0, _ => (.outOfFuel, none)
  | _ + 1, [] => (.outcome .valid, none)
  | n + 1, g :: rest =>
    let g1 := g.saturate
    if g1.done then prove_fuel_aux n rest
    else
      let g2 := g1.split_ite
      if g2.scrutinees.isEmpty then (.outcome .invalid, some g2)
      else if g2.scrutinees.head? = some BOUND_EXCEEDED then
        (.outcome .unknown, some g2)
      else
        match g2.case_split with
        | none => (.panic, some g2)
        | some children => prove_fuel_aux n (children ++ rest)

/-- `g2` is the result of running further operations on `g1`: the union
log of `g1` is a prefix of that of `g2`. -/
def EGraph.Extends (g1 g2 : EGraph) : Prop :=
  ∃ δ, g2.unions = g1.unions ++ δ

/-!
Concrete inputs used to witness or refute the claims.  The environment
maps datatypes to constructor lists, the global context gives constructor
types, and the initial rewrites play the role of user function
definitions.
-/

def natTy : Ty := Ty.data "Nat"

def exEnv : Env := [("Nat", ["Z", "S"])]

def exGctx : Context :=
  [("Z", natTy), ("S", Ty.fn [natTy] natTy), ("add", Ty.fn [natTy, natTy] natTy)]

/-- Defining rewrite for addition on zero: add(Z, y) rewrites to y. -/
def rwAddZ : Rw :=
  { name := "add-z",
    searcher := Expr.node "add" [Expr.leaf "Z", Expr.leaf "?y"],
    applier := Expr.leaf "?y", cond := none }

/-- A user-supplied rewrite: add(x, Z) rewrites to Z. -/
def rwAddXZ : Rw :=
  { name := "add-x-z",
    searcher := Expr.node "add" [Expr.leaf "?x", Expr.leaf "Z"],
    applier := Expr.leaf "Z", cond := none }

/-- C1 input: conjecture add(a-b, w) = w with parameters named a-b
(a legal identifier containing a hyphen) and w. -/
def c1goal : Goal :=
  Goal.top "top" (Expr.node "add" [Expr.leaf "a-b", Expr.leaf "w"])
    (Expr.leaf "w") [("a-b", natTy), ("w", natTy)] exEnv exGctx [rwAddZ, rwAddXZ]

/-- C3-witness input: conjecture x = c over Nat with one inherited
rewrite. -/
def c3goal : Goal :=
  Goal.top "top" (Expr.leaf "x") (Expr.leaf "c") [("x", natTy)] exEnv exGctx
    [⟨"r", Expr.leaf "q", Expr.leaf "q", none⟩]

/-- C4-witness input: no parameters, distinct constant sides. -/
def c4goal : Goal :=
  Goal.top "top" (Expr.leaf "a") (Expr.leaf "b") [] exEnv exGctx []

def dTy : Ty := Ty.data "D"

def c6env : Env := [("D", ["A", "B"])]

def c6gctx : Context := [("A", Ty.fn [dTy] dTy), ("B", Ty.fn [dTy] dTy)]

/-- C6 input: a datatype with two unary constructors, so that two sibling
subgoals both mint a fresh variable for argument position 0. -/
def c6goal : Goal :=
  Goal.top "top" (Expr.leaf "x") (Expr.leaf "c") [("x", dTy)] c6env c6gctx []

/-- C7 input: the parameter's datatype Foo is not in the environment. -/
def c7goal : Goal :=
  Goal.top "top" (Expr.leaf "p") (Expr.leaf "c") [("p", Ty.data "Foo")]
    exEnv exGctx []

/-- C8-witness input: both sides are the same term. -/
def c8goal : Goal :=
  Goal.top "t" (Expr.leaf "a") (Expr.leaf "a") [] [] [] []

def c9env : Env := [("D", [])]

/-- C9 input: the parameter's datatype D is in the environment with an
empty constructor list. -/
def c9goal : Goal :=
  Goal.top "top" (Expr.leaf "p") (Expr.leaf "c") [("p", Ty.data "D")] c9env [] []

/-- C10 input: the left side contains an ite whose guard (p a) is
irreducible, and Bool is not a datatype of the environment. -/
def c10goal : Goal :=
  Goal.top "top"
    (Expr.node "ite" [Expr.node "p" [Expr.leaf "a"], Expr.leaf "b", Expr.leaf "c"])
    (Expr.leaf "d") [] exEnv exGctx []

/-- C5-witness input: identical shape to the C10 input (kept separate so
each claim has its own instance). -/
def c5goal : Goal :=
  Goal.top "top"
    (Expr.node "ite" [Expr.node "p" [Expr.leaf "a"], Expr.leaf "b", Expr.leaf "c"])
    (Expr.leaf "d") [] exEnv exGctx []

/-!
Literal intermediate states of the C1 run, used to replay the driver loop
step by step (each literal is checked against the computed state by the
step proofs below).
-/

def eAB : Expr := Expr.leaf "a-b"

def eW : Expr := Expr.leaf "w"

def eAdd : Expr := Expr.node "add" [eAB, eW]

def eAB30 : Expr := Expr.leaf "a-b-30"

def eSab : Expr := Expr.node "S" [eAB30]

def eW40 : Expr := Expr.leaf "w-40"

def eSw : Expr := Expr.node "S" [eW40]

/-- The lemma synthesized from the top goal of the C1 run. -/
def lemmaTop : Rw :=
  { name := "lemma-(add a-b w)=w",
    searcher := Expr.node "add" [Expr.leaf "?a-b", Expr.leaf "?w"],
    applier := Expr.leaf "?w", cond := some ["a-b", "w"] }

/-- The lemma synthesized from the first S-child of the C1 run (the
variable a-b has been instantiated, so it stays a constant symbol in the
pattern). -/
def lemmaS : Rw :=
  { name := "lemma-(add a-b w)=w",
    searcher := Expr.node "add" [eAB, Expr.leaf "?w"],
    applier := Expr.leaf "?w", cond := some ["w", BOUND_EXCEEDED] }

/-- C1 run, first split (on a-b), Z child. -/
def gZ1 : Goal :=
  { name := "a-b=Z",
    egraph := { nodes := [eW, eAdd, Expr.leaf "Z"],
                unions := [(eAB, Expr.leaf "Z")] },
    rewrites := [rwAddZ, rwAddXZ],
    local_context := [("w", natTy)],
    scrutinees := ["w"],
    lhs_id := eAdd, rhs_id := eW, env := exEnv, global_context := exGctx }

/-- C1 run, first split (on a-b), S child: the fresh variable a-b-30 has
depth 2, so the sentinel was pushed onto the queue. -/
def gS1 : Goal :=
  { name := "a-b=(S a-b-30)",
    egraph := { nodes := [eW, eAdd, eAB30, eSab],
                unions := [(eAB, eSab)] },
    rewrites := [rwAddZ, rwAddXZ, lemmaTop],
    local_context := [("a-b-30", natTy), ("w", natTy)],
    scrutinees := ["w", BOUND_EXCEEDED],
    lhs_id := eAdd, rhs_id := eW, env := exEnv, global_context := exGctx }

/-- C1 run, second split (on w), Z child. -/
def wZ2 : Goal :=
  { name := "a-b=(S a-b-30):w=Z",
    egraph := { nodes := [eAdd, eAB30, eSab, Expr.leaf "Z"],
                unions := [(eAB, eSab), (eW, Expr.leaf "Z")] },
    rewrites := [rwAddZ, rwAddXZ, lemmaTop],
    local_context := [("a-b-30", natTy)],
    scrutinees := [BOUND_EXCEEDED],
    lhs_id := eAdd, rhs_id := eW, env := exEnv, global_context := exGctx }

/-- C1 run, second split (on w), S child: the queue holds the sentinel in
front of the still-splittable fresh variable w-40 of depth 1. -/
def wS2 : Goal :=
  { name := "a-b=(S a-b-30):w=(S w-40)",
    egraph := { nodes := [eAdd, eAB30, eSab, eW40, eSw],
                unions := [(eAB, eSab), (eW, eSw)] },
    rewrites := [rwAddZ, rwAddXZ, lemmaTop, lemmaS],
    local_context := [("w-40", natTy), ("a-b-30", natTy)],
    scrutinees := [BOUND_EXCEEDED, "w-40"],
    lhs_id := eAdd, rhs_id := eW, env := exEnv, global_context := exGctx }

/-- Idempotency of a union-find canonicalization map. -/
def Idem (f : Expr → Expr) : Prop := ∀ x, f (f x) = f x

/-- Decoding of a little-endian decimal digit list, inverse of
`natDigits`. -/
def ofDig (l : List Nat) : Nat := l.foldr (fun d acc => d + 10 * acc) 0

/-- The children produced by the case split of the C3-witness goal. -/
def c3children : List Goal := (c3goal.case_split).getD []

/-!
Theorems.  First, the agreement of the instrumented driver with the plain
one.
-/

theorem prove_fuel_aux_fst : ∀ (n : Nat) (s : List Goal),
    (prove_fuel_aux n s).1 = prove_fuel n s := by
  intro n
  induction n with
  | zero => intro s; rfl
  | succ n ih =>
    intro s
    cases s with
    | nil => rfl
    | cons g rest =>
      simp only [prove_fuel_aux, prove_fuel]
      by_cases h1 : g.saturate.done
      · simp [h1, ih]
      · simp only [h1, if_false]
        by_cases h2 : g.saturate.split_ite.scrutinees.isEmpty
        · simp [h2]
        · simp only [h2, if_false]
          by_cases h3 :
              g.saturate.split_ite.scrutinees.head? = some BOUND_EXCEEDED
          · simp [h3]
          · simp only [h3, if_false]
            cases g.saturate.split_ite.case_split with
            | none => rfl
            | some children => simp [ih]

/-!
Monotonicity of the e-graph: every operation only appends union records,
so equalities already established are never undone.
-/

theorem ufStep_congr (f : Expr → Expr) (p : Expr × Expr) {x y : Expr}
    (h : f x = f y) : ufStep f p x = ufStep f p y := by
  unfold ufStep
  rw [h]

theorem foldl_ufStep_congr :
    ∀ (δ : List (Expr × Expr)) (f : Expr → Expr) {x y : Expr},
      f x = f y → (δ.foldl ufStep f) x = (δ.foldl ufStep f) y := by
  intro δ
  induction δ with
  | nil => intro f x y h; exact h
  | cons p ps ih =>
    intro f x y h
    exact ih (ufStep f p) (ufStep_congr f p h)

theorem findFun_mono (prs δ : List (Expr × Expr)) {x y : Expr}
    (h : findFun prs x = findFun prs y) :
    findFun (prs ++ δ) x = findFun (prs ++ δ) y := by
  unfold findFun at h ⊢
  rw [List.foldl_append]
  exact foldl_ufStep_congr δ (findFun prs) h

theorem EGraph.Extends.rfl (g : EGraph) : g.Extends g :=
  ⟨[], by simp⟩

theorem EGraph.Extends.trans {g1 g2 g3 : EGraph}
    (h1 : g1.Extends g2) (h2 : g2.Extends g3) : g1.Extends g3 := by
  obtain ⟨d1, e1⟩ := h1
  obtain ⟨d2, e2⟩ := h2
  exact ⟨d1 ++ d2, by rw [e2, e1, List.append_assoc]⟩

theorem EGraph.find_mono {g1 g2 : EGraph} (h : g1.Extends g2) {x y : Expr}
    (hxy : g1.find x = g1.find y) : g2.find x = g2.find y := by
  obtain ⟨δ, e⟩ := h
  unfold EGraph.find at hxy ⊢
  rw [e]
  exact findFun_mono g1.unions δ hxy

theorem EGraph.addNode_unions (g : EGraph) (e : Expr) :
    (g.addNode e).unions = g.unions := by
  unfold EGraph.addNode
  split <;> rfl

mutual

theorem EGraph.addExpr_unions :
    ∀ (g : EGraph) (e : Expr), (EGraph.addExpr g e).unions = g.unions
  | g, .node op args => by
    rw [EGraph.addExpr, EGraph.addNode_unions]
    exact EGraph.addExprList_unions g args
termination_by _g e => sizeOf e

theorem EGraph.addExprList_unions :
    ∀ (g : EGraph) (l : List Expr), (EGraph.addExprList g l).unions = g.unions
  | _, [] => by rw [EGraph.addExprList]
  | g, e :: es => by
    rw [EGraph.addExprList, EGraph.addExprList_unions _ es,
      EGraph.addExpr_unions g e]
termination_by _g l => sizeOf l

end

theorem EGraph.addExpr_extends (g : EGraph) (e : Expr) :
    g.Extends (g.addExpr e) :=
  ⟨[], by rw [EGraph.addExpr_unions]; simp⟩

theorem EGraph.union_extends (g : EGraph) (a b : Expr) :
    g.Extends (g.union a b) := by
  unfold EGraph.union
  split
  · exact EGraph.Extends.rfl g
  · exact ⟨[(a, b)], by simp⟩

theorem foldl_extends {α : Type} (f : EGraph → α → EGraph)
    (h : ∀ (acc : EGraph) (b : α), acc.Extends (f acc b)) :
    ∀ (l : List α) (g : EGraph), g.Extends (l.foldl f g) := by
  intro l
  induction l with
  | nil => intro g; exact EGraph.Extends.rfl g
  | cons b bs ih =>
    intro g
    exact (h g b).trans (ih (f g b))

theorem applyRwStep_extends (rw : Rw) (acc : EGraph) (tm : Expr × Subst) :
    acc.Extends (applyRwStep rw acc tm) := by
  unfold applyRwStep
  split
  · exact (acc.addExpr_extends (instPat tm.2 rw.applier)).trans
      (EGraph.union_extends _ tm.1 (instPat tm.2 rw.applier))
  · exact EGraph.Extends.rfl acc

theorem applyRw_extends (g : EGraph) (rw : Rw) : g.Extends (applyRw g rw) := by
  unfold applyRw
  exact foldl_extends (applyRwStep rw) (applyRwStep_extends rw) _ g

theorem saturateStep_extends (g : EGraph) (rws : List Rw) :
    g.Extends (saturateStep g rws) := by
  unfold saturateStep
  induction rws generalizing g with
  | nil => exact EGraph.Extends.rfl g
  | cons r rs ih => exact (applyRw_extends g r).trans (ih (applyRw g r))

theorem runner_extends :
    ∀ (n : Nat) (rws : List Rw) (g : EGraph), g.Extends (runner n rws g) := by
  intro n
  induction n with
  | zero => intro rws g; exact EGraph.Extends.rfl g
  | succ n ih =>
    intro rws g
    rw [runner]
    split
    · exact EGraph.Extends.rfl g
    · exact (saturateStep_extends g rws).trans (ih rws (saturateStep g rws))

theorem saturate_egraph_extends (g : Goal) :
    g.egraph.Extends g.saturate.egraph :=
  runner_extends runnerIterLimit g.rewrites g.egraph

theorem saturate_lhs_id (g : Goal) : g.saturate.lhs_id = g.lhs_id := rfl

theorem saturate_rhs_id (g : Goal) : g.saturate.rhs_id = g.rhs_id := rfl

/-- C8: for every goal g, if done(g) holds then done(saturate(g)) holds:
saturation only adds terms and merges classes, so it never undoes the
equality of the two goal sides. -/
theorem C8_theorem (g : Goal) (h : g.done = true) : g.saturate.done = true := by
  unfold Goal.done at h ⊢
  have h2 : g.egraph.find g.lhs_id = g.egraph.find g.rhs_id :=
    of_decide_eq_true h
  have h3 : g.saturate.egraph.find g.lhs_id = g.saturate.egraph.find g.rhs_id :=
    EGraph.find_mono (saturate_egraph_extends g) h2
  rw [saturate_lhs_id, saturate_rhs_id]
  exact decide_eq_true h3

/-- C8 witness: a concrete discharged goal stays discharged across
saturation. -/
theorem C8_witness : c8goal.done = true ∧ c8goal.saturate.done = true :=
  ⟨by decide, C8_theorem c8goal (by decide)⟩

theorem prove_fuel_step_done (n : Nat) (g : Goal) (rest : List Goal)
    (h : g.saturate.done = true) :
    prove_fuel (n + 1) (g :: rest) = prove_fuel n rest := by
  simp [prove_fuel, h]

theorem prove_fuel_step_split (n : Nat) (g : Goal) (rest children : List Goal)
    (h1 : g.saturate.done = false)
    (h2 : g.saturate.split_ite.scrutinees.isEmpty = false)
    (h3 : g.saturate.split_ite.scrutinees.head? ≠ some BOUND_EXCEEDED)
    (h4 : g.saturate.split_ite.case_split = some children) :
    prove_fuel (n + 1) (g :: rest) = prove_fuel n (children ++ rest) := by
  simp [prove_fuel, h1, h2, h3, h4]

theorem prove_fuel_aux_step_done (n : Nat) (g : Goal) (rest : List Goal)
    (h : g.saturate.done = true) :
    prove_fuel_aux (n + 1) (g :: rest) = prove_fuel_aux n rest := by
  simp [prove_fuel_aux, h]

theorem prove_fuel_aux_step_split (n : Nat) (g : Goal) (rest children : List Goal)
    (h1 : g.saturate.done = false)
    (h2 : g.saturate.split_ite.scrutinees.isEmpty = false)
    (h3 : g.saturate.split_ite.scrutinees.head? ≠ some BOUND_EXCEEDED)
    (h4 : g.saturate.split_ite.case_split = some children) :
    prove_fuel_aux (n + 1) (g :: rest) = prove_fuel_aux n (children ++ rest) := by
  simp [prove_fuel_aux, h1, h2, h3, h4]

theorem prove_fuel_aux_step_unknown (n : Nat) (g : Goal) (rest : List Goal)
    (h1 : g.saturate.done = false)
    (h2 : g.saturate.split_ite.scrutinees.isEmpty = false)
    (h3 : g.saturate.split_ite.scrutinees.head? = some BOUND_EXCEEDED) :
    prove_fuel_aux (n + 1) (g :: rest) =
      (ProveResult.outcome Outcome.unknown, some g.saturate.split_ite) := by
  simp [prove_fuel_aux, h1, h2, h3]

set_option maxRecDepth 10000 in
theorem c1_run : prove_fuel_aux 9 [c1goal] =
    (ProveResult.outcome Outcome.unknown, some wS2.saturate.split_ite) := by
  calc prove_fuel_aux 9 [c1goal]
      = prove_fuel_aux 8 [gZ1, gS1] :=
        prove_fuel_aux_step_split 8 c1goal [] [gZ1, gS1]
          (by decide) (by decide) (by decide) (by decide)
    _ = prove_fuel_aux 7 [gS1] :=
        prove_fuel_aux_step_done 7 gZ1 [gS1] (by decide)
    _ = prove_fuel_aux 6 [wZ2, wS2] :=
        prove_fuel_aux_step_split 6 gS1 [] [wZ2, wS2]
          (by decide) (by decide) (by decide) (by decide)
    _ = prove_fuel_aux 5 [wS2] :=
        prove_fuel_aux_step_done 5 wZ2 [wS2] (by decide)
    _ = (ProveResult.outcome Outcome.unknown, some wS2.saturate.split_ite) :=
        prove_fuel_aux_step_unknown 4 wS2 [] (by decide) (by decide) (by decide)

set_option maxRecDepth 10000 in
theorem c1_final_scrutinees :
    wS2.saturate.split_ite.scrutinees = [BOUND_EXCEEDED, "w-40"] := by decide

set_option maxRecDepth 10000 in
theorem c1_final_context :
    Context.get wS2.saturate.split_ite.local_context "w-40" = some natTy := by
  decide

/-- C1 counterexample: a run of prove returns UNKNOWN although the subgoal
that triggered the return still has a splittable scrutinee behind the
front sentinel: the fresh variable w-40 has depth 1 < maxSplitDepth and is
bound in the local context with datatype Nat of the environment, so the
depth bound had not been reached on every remaining scrutinee of that
subgoal. -/
theorem C1_counterexample :
    prove_fuel 9 [c1goal] = ProveResult.outcome Outcome.unknown ∧
    (prove_fuel_aux 9 [c1goal]).2.map Goal.scrutinees =
      some [BOUND_EXCEEDED, "w-40"] ∧
    (prove_fuel_aux 9 [c1goal]).2.map
      (fun q => Context.get q.local_context "w-40") = some (some natTy) ∧
    "w-40" ≠ BOUND_EXCEEDED ∧ var_depth "w-40" < maxSplitDepth := by
  refine ⟨?_, ?_, ?_, by decide, by decide⟩
  · rw [← prove_fuel_aux_fst, c1_run]
  · rw [c1_run]
    exact congrArg some c1_final_scrutinees
  · rw [c1_run]
    exact congrArg some c1_final_context

theorem prove_fuel_aux_unknown_front :
    ∀ (n : Nat) (state : List Goal) (og : Option Goal),
      prove_fuel_aux n state = (ProveResult.outcome Outcome.unknown, og) →
      ∃ gU, og = some gU ∧ gU.scrutinees.head? = some BOUND_EXCEEDED := by
  intro n
  induction n with
  | zero =>
    intro state og h
    simp [prove_fuel_aux] at h
  | succ n ih =>
    intro state og h
    cases state with
    | nil => simp [prove_fuel_aux] at h
    | cons g rest =>
      simp only [prove_fuel_aux] at h
      by_cases h1 : g.saturate.done
      · simp only [h1, if_true] at h
        exact ih rest og h
      · simp only [h1, if_false] at h
        by_cases h2 : g.saturate.split_ite.scrutinees.isEmpty
        · simp only [h2, if_true] at h
          simp at h
        · simp only [h2, if_false] at h
          by_cases h3 :
              g.saturate.split_ite.scrutinees.head? = some BOUND_EXCEEDED
          · rw [if_pos h3] at h
            refine ⟨g.saturate.split_ite, ?_, h3⟩
            have h4 := congrArg Prod.snd h
            exact h4.symm
          · rw [if_neg h3] at h
            cases hc : g.saturate.split_ite.case_split with
            | none => rw [hc] at h; simp at h
            | some children =>
              rw [hc] at h
              exact ih (children ++ rest) og h

/-- C1 amended: for every run of prove that returns UNKNOWN, the subgoal
that triggered the return (reported by the instrumented copy of the loop)
had the depth-bound sentinel at the front of its scrutinee queue; only the
front element is inspected, and scrutinees behind the front may still be
splittable. -/
theorem C1_amended_theorem :
    ∀ (n : Nat) (state : List Goal),
      prove_fuel n state = ProveResult.outcome Outcome.unknown →
      ∃ gU, (prove_fuel_aux n state).2 = some gU ∧
        gU.scrutinees.head? = some BOUND_EXCEEDED := by
  intro n state h
  have h2 : prove_fuel_aux n state =
      (ProveResult.outcome Outcome.unknown, (prove_fuel_aux n state).2) := by
    have h3 := prove_fuel_aux_fst n state
    rw [h] at h3
    exact Prod.ext h3 rfl
  exact prove_fuel_aux_unknown_front n state (prove_fuel_aux n state).2 h2

/-- C1 witness: the amended claim applied to the concrete UNKNOWN run. -/
theorem C1_witness :
    ∃ gU, (prove_fuel_aux 9 [c1goal]).2 = some gU ∧
      gU.scrutinees.head? = some BOUND_EXCEEDED :=
  C1_amended_theorem 9 [c1goal] (by rw [← prove_fuel_aux_fst, c1_run])

/-- C4: for every popped subgoal that after saturation is not done and,
after conditional splitting, has an empty scrutinee queue, the driver
immediately returns INVALID. -/
theorem C4_theorem (n : Nat) (g : Goal) (rest : List Goal)
    (h1 : g.saturate.done = false)
    (h2 : g.saturate.split_ite.scrutinees = []) :
    prove_fuel (n + 1) (g :: rest) = ProveResult.outcome Outcome.invalid := by
  simp [prove_fuel, h1, h2]

/-- C4 witness: a concrete undischargeable goal without scrutinees. -/
theorem C4_witness :
    prove_fuel 1 [c4goal] = ProveResult.outcome Outcome.invalid :=
  C4_theorem 0 c4goal [] (by decide) (by decide)

/-- C9: when the datatype of the popped scrutinee has an empty constructor
list in the environment, case_split produces no child subgoals (no runtime
check rejects this), so the undischarged goal is silently dropped and the
driver can proceed to return VALID, as the concrete run shows. -/
theorem C9_theorem :
    (∀ (g : Goal) (var : Symbol) (rest : List Symbol) (varId : Expr)
       (ty : Ty) (dt : String),
      g.scrutinees = var :: rest →
      g.egraph.lookupExpr (Expr.leaf var) = some varId →
      Context.get g.local_context var = some ty →
      ty.datatype = some dt →
      Env.get g.env dt = some [] →
      g.case_split = some []) ∧
    (c9goal.done = false ∧ c9goal.saturate.done = false ∧
      prove_fuel 3 [c9goal] = ProveResult.outcome Outcome.valid) := by
  constructor
  · intro g var rest varId ty dt h1 h2 h3 h4 h5
    unfold Goal.case_split
    rw [h1]
    simp only [h2, h3, h4, h5]
    rfl
  · exact ⟨by decide, by decide, by decide⟩

/-- C9 witness: the empty-constructor case_split applied to the concrete
goal of the VALID run. -/
theorem C9_witness : c9goal.case_split = some [] :=
  C9_theorem.1 c9goal "p" [] (Expr.leaf "p") (Ty.data "D") "D"
    (by decide) (by decide) (by decide) (by decide) (by decide)

/-- C10: split_ite pushes the fresh guard variable (front of the queue,
local context binding of type Bool) without checking that Bool is a
datatype of the environment; popping it makes case_split fail its
environment lookup (a panicking unwrap in the source), so the prover
panics. -/
theorem C10_theorem :
    Env.get c10goal.env "Bool" = none ∧
    c10goal.saturate.split_ite.scrutinees.head? = some "g-(p a)" ∧
    Context.get c10goal.saturate.split_ite.local_context "g-(p a)" =
      some boolTy ∧
    c10goal.saturate.split_ite.case_split = none ∧
    prove_fuel 2 [c10goal] = ProveResult.panic :=
  ⟨by decide, by decide, by decide, by decide, by decide⟩

/-- C7 counterexample: a parameter whose datatype Foo is not in the
environment is not detected at top-goal construction: the goal is built
normally (the parameter is typed in the local context but absent from the
scrutinee queue) and the prover proceeds to a verdict instead of
surfacing a fatal error. -/
theorem C7_counterexample :
    Ty.datatype (Ty.data "Foo") = some "Foo" ∧ Env.get exEnv "Foo" = none ∧
    c7goal.scrutinees = [] ∧
    Context.get c7goal.local_context "p" = some (Ty.data "Foo") ∧
    prove_fuel 2 [c7goal] = ProveResult.outcome Outcome.invalid :=
  ⟨by decide, by decide, by decide, by decide, by decide⟩

/-- C7 amended: a conjecture parameter whose datatype is not in the
environment is silently accepted by top-goal construction: it is inserted
into the local context but omitted from the scrutinee queue, and no error
is surfaced to the caller. -/
theorem C7_amended_theorem (name : String) (lhs rhs : Expr) (p : Symbol)
    (ty : Ty) (dt : String) (env : Env) (gctx : Context) (rws : List Rw)
    (h1 : ty.datatype = some dt) (h2 : Env.get env dt = none) :
    (Goal.top name lhs rhs [(p, ty)] env gctx rws).scrutinees = [] ∧
    Context.get (Goal.top name lhs rhs [(p, ty)] env gctx rws).local_context p
      = some ty := by
  unfold Goal.top
  simp only [List.foldl]
  unfold Goal.add_scrutinee
  rw [h1]
  simp [h2, Context.get, Context.insert, Context.remove]

/-- C7 witness: the amended claim at the concrete malformed input. -/
theorem C7_witness :
    c7goal.scrutinees = [] ∧
    Context.get c7goal.local_context "p" = some (Ty.data "Foo") :=
  C7_amended_theorem "top" (Expr.leaf "p") (Expr.leaf "c") "p" (Ty.data "Foo")
    "Foo" exEnv exGctx [] (by decide) (by decide)

/-!
The smaller-tuple side condition (claim C2).
-/

theorem smallerTupleAux_iff :
    ∀ (l : List (Symbol × Expr)) (acc : Bool),
      smallerTupleAux acc l = true ↔
        ((∀ p ∈ l, is_descendant p.2.toStr p.1 = true ∨ p.2.toStr = p.1) ∧
         (acc = true ∨ ∃ p ∈ l, is_descendant p.2.toStr p.1 = true)) := by
  intro l
  induction l with
  | nil => intro acc; simp [smallerTupleAux]
  | cons hd tl ih =>
    intro acc
    obtain ⟨v, e⟩ := hd
    simp only [smallerTupleAux]
    by_cases hd1 : is_descendant e.toStr v = true
    · rw [if_pos hd1, ih true]
      constructor
      · rintro ⟨ha, -⟩
        constructor
        · intro p hp
          rcases List.mem_cons.mp hp with h | h
          · subst h; exact Or.inl hd1
          · exact ha p h
        · exact Or.inr ⟨(v, e), List.mem_cons_self _ _, hd1⟩
      · rintro ⟨ha, -⟩
        exact ⟨fun p hp => ha p (List.mem_cons_of_mem _ hp), Or.inl rfl⟩
    · rw [if_neg hd1]
      by_cases hd2 : e.toStr = v
      · rw [if_neg (by simp [hd2]), ih acc]
        constructor
        · rintro ⟨ha, hb⟩
          constructor
          · intro p hp
            rcases List.mem_cons.mp hp with h | h
            · subst h; exact Or.inr hd2
            · exact ha p h
          · rcases hb with h | ⟨p, hp, h⟩
            · exact Or.inl h
            · exact Or.inr ⟨p, List.mem_cons_of_mem _ hp, h⟩
        · rintro ⟨ha, hb⟩
          constructor
          · intro p hp
            exact ha p (List.mem_cons_of_mem _ hp)
          · rcases hb with h | ⟨p, hp, h⟩
            · exact Or.inl h
            · rcases List.mem_cons.mp hp with h2 | h2
              · rw [h2] at h; exact absurd h hd1
              · exact Or.inr ⟨p, h2, h⟩
      · rw [if_pos (by simp [hd2])]
        constructor
        · intro h
          exact absurd h (by simp)
        · rintro ⟨ha, -⟩
          rcases ha (v, e) (List.mem_cons_self _ _) with h | h
          · exact absurd h hd1
          · exact absurd h hd2

/-- C2: the smaller-tuple side condition accepts a substitution iff, over
the scrutinee tuple captured at synthesis time, every bound component is
extracted to either the same variable or a strict syntactic descendant
(decided by the name-trace predicate is_descendant), at least one bound
component is a strict descendant, and unbound scrutinees are ignored. -/
theorem C2_theorem (scruts : List Symbol) (g : EGraph)
    (σ : String → Option Expr) :
    SmallerVar.check scruts g σ = true ↔
      ((∀ v ∈ scruts, ∀ id, σ (toWildcard v) = some id →
          is_descendant (g.extractBest id).toStr v = true ∨
          (g.extractBest id).toStr = v) ∧
       (∃ v ∈ scruts, ∃ id, σ (toWildcard v) = some id ∧
          is_descendant (g.extractBest id).toStr v = true)) := by
  unfold SmallerVar.check smallerTuple
  rw [smallerTupleAux_iff]
  simp only [Bool.false_eq_true, false_or]
  constructor
  · rintro ⟨ha, hb⟩
    constructor
    · intro v hv id hid
      have hmem : (v, g.extractBest id) ∈ scruts.filterMap
          (fun v => (σ (toWildcard v)).map (fun id => (v, g.extractBest id))) := by
        apply List.mem_filterMap.mpr
        exact ⟨v, hv, by rw [hid]; rfl⟩
      exact ha _ hmem
    · obtain ⟨p, hp, h⟩ := hb
      obtain ⟨v, hv, heq⟩ := List.mem_filterMap.mp hp
      cases hσ : σ (toWildcard v) with
      | none => rw [hσ] at heq; simp at heq
      | some id =>
        rw [hσ] at heq
        injection heq with heq2
        refine ⟨v, hv, id, hσ, ?_⟩
        rw [← heq2] at h
        exact h
  · rintro ⟨ha, v, hv, id, hσ, h⟩
    constructor
    · intro p hp
      obtain ⟨v2, hv2, heq⟩ := List.mem_filterMap.mp hp
      cases hσ2 : σ (toWildcard v2) with
      | none => rw [hσ2] at heq; simp at heq
      | some id2 =>
        rw [hσ2] at heq
        injection heq with heq2
        rw [← heq2]
        exact ha v2 hv2 id2 hσ2
    · exact ⟨(v, g.extractBest id),
        List.mem_filterMap.mpr ⟨v, hv, by rw [hσ]; rfl⟩, h⟩

/-!
Lemma installation at case splits (claim C3).
-/

theorem add_scrutinee_rewrites (g : Goal) (v : Symbol) (ty : Ty) (d : Nat) :
    (g.add_scrutinee v ty d).rewrites = g.rewrites := by
  unfold Goal.add_scrutinee
  cases ty.datatype with
  | none => rfl
  | some dt =>
    simp only []
    split
    · split <;> rfl
    · rfl

theorem addConArgStep_rewrites (acc : Goal) (p : Symbol × Ty) :
    (addConArgStep acc p).rewrites = acc.rewrites := by
  unfold addConArgStep
  rw [add_scrutinee_rewrites]

theorem foldl_addConArgStep_rewrites :
    ∀ (l : List (Symbol × Ty)) (a : Goal),
      (l.foldl addConArgStep a).rewrites = a.rewrites := by
  intro l
  induction l with
  | nil => intro a; rfl
  | cons x xs ih =>
    intro a
    rw [List.foldl_cons, ih, addConArgStep_rewrites]

theorem caseSplitChild_rewrites (g : Goal) (lemmas : List Rw) (var : Symbol)
    (varId : Expr) (con : Symbol) (child : Goal) (conTy : Ty)
    (hty : Context.get g.global_context con = some conTy)
    (h : g.caseSplitChild lemmas var varId con = some child) :
    child.rewrites =
      if conTy.argTys.length = 0 then g.rewrites
      else g.rewrites ++ lemmas := by
  unfold Goal.caseSplitChild at h
  rw [hty] at h
  simp only [Option.some.injEq] at h
  subst h
  simp only [foldl_addConArgStep_rewrites]
  by_cases hz : conTy.argTys.length = 0
  · simp [hz]
  · simp [hz, List.isEmpty_iff, List.map_eq_nil_iff, List.range_eq_nil]

theorem childrenFor_spec (g : Goal) (lemmas : List Rw) (var : Symbol)
    (varId : Expr) :
    ∀ (cons : List Symbol) (children : List Goal),
      childrenFor g lemmas var varId cons = some children →
      children.length = cons.length ∧
      ∀ (i : Nat) (hi : i < cons.length) (hic : i < children.length),
        g.caseSplitChild lemmas var varId (cons.get ⟨i, hi⟩) =
          some (children.get ⟨i, hic⟩) := by
  intro cons
  induction cons with
  | nil =>
    intro children h
    unfold childrenFor at h
    injection h with h2
    subst h2
    exact ⟨rfl, fun i hi hic => absurd hi (by simp)⟩
  | cons c cs ih =>
    intro children h
    unfold childrenFor at h
    cases hc : g.caseSplitChild lemmas var varId c with
    | none => rw [hc] at h; cases h
    | some child =>
      rw [hc] at h
      cases hr : childrenFor g lemmas var varId cs with
      | none => rw [hr] at h; cases h
      | some rest =>
        rw [hr] at h
        simp only [Option.map_some', Option.some.injEq] at h
        subst h
        obtain ⟨hlen, hspec⟩ := ih rest hr
        refine ⟨by simp [hlen], ?_⟩
        intro i hi hic
        cases i with
        | zero => simpa using hc
        | succ j =>
          have hj : j < cs.length := by simpa using hi
          have hjc : j < rest.length := by simpa using hic
          simpa using hspec j hj hjc

/-- C3: whenever case_split succeeds, each child subgoal's rewrite set
extends the parent's precisely by the synthesized lemmas when its
constructor has at least one argument, and equals the parent's inherited
rewrites when the constructor is nullary. -/
theorem C3_theorem :
    ∀ (g : Goal) (children : List Goal),
      g.case_split = some children →
      ∃ var rest varId ty dt cons,
        g.scrutinees = var :: rest ∧
        g.egraph.lookupExpr (Expr.leaf var) = some varId ∧
        Context.get g.local_context var = some ty ∧
        ty.datatype = some dt ∧
        Env.get g.env dt = some cons ∧
        children.length = cons.length ∧
        ∀ (i : Nat) (hi : i < cons.length) (hic : i < children.length)
          (conTy : Ty),
          Context.get g.global_context (cons.get ⟨i, hi⟩) = some conTy →
          (children.get ⟨i, hic⟩).rewrites =
            if conTy.argTys.length = 0 then g.rewrites
            else g.rewrites ++ g.mk_lemma_rewrites := by
  intro g children h
  unfold Goal.case_split at h
  cases hs : g.scrutinees with
  | nil => rw [hs] at h; cases h
  | cons var rest =>
    rw [hs] at h
    simp only [] at h
    cases hv : g.egraph.lookupExpr (Expr.leaf var) with
    | none => rw [hv] at h; cases h
    | some varId =>
      rw [hv] at h
      simp only [] at h
      cases hty : Context.get g.local_context var with
      | none => rw [hty] at h; cases h
      | some ty =>
        rw [hty] at h
        simp only [] at h
        cases hdt : ty.datatype with
        | none => rw [hdt] at h; cases h
        | some dt =>
          rw [hdt] at h
          simp only [] at h
          cases he : Env.get g.env dt with
          | none => rw [he] at h; cases h
          | some cons =>
            rw [he] at h
            simp only [] at h
            obtain ⟨hlen, hspec⟩ :=
              childrenFor_spec { g with scrutinees := rest }
                g.mk_lemma_rewrites var varId cons children h
            refine ⟨var, rest, varId, ty, dt, cons, rfl, hv, hty, hdt, he,
              hlen, ?_⟩
            intro i hi hic conTy hcty
            have hchild := hspec i hi hic
            exact caseSplitChild_rewrites { g with scrutinees := rest }
              g.mk_lemma_rewrites var varId (cons.get ⟨i, hi⟩)
              (children.get ⟨i, hic⟩) conTy hcty hchild

/-- C3 witness: the concrete Nat case split, whose Z child keeps the
inherited rewrite and whose S child additionally receives the lemma. -/
theorem C3_witness :
    ∃ var rest varId ty dt cons,
      c3goal.scrutinees = var :: rest ∧
      c3goal.egraph.lookupExpr (Expr.leaf var) = some varId ∧
      Context.get c3goal.local_context var = some ty ∧
      ty.datatype = some dt ∧
      Env.get c3goal.env dt = some cons ∧
      c3children.length = cons.length ∧
      ∀ (i : Nat) (hi : i < cons.length) (hic : i < c3children.length)
        (conTy : Ty),
        Context.get c3goal.global_context (cons.get ⟨i, hi⟩) = some conTy →
        (c3children.get ⟨i, hic⟩).rewrites =
          if conTy.argTys.length = 0 then c3goal.rewrites
          else c3goal.rewrites ++ c3goal.mk_lemma_rewrites :=
  C3_theorem c3goal c3children (by decide)

/-!
Idempotency of the replayed union-find, and the effect of `split_ite`
(claim C5).
-/

theorem ufStep_idem {f : Expr → Expr} (hf : Idem f) (p : Expr × Expr) :
    Idem (ufStep f p) := by
  intro x
  unfold ufStep
  by_cases h1 : f x = f p.1
  · rw [if_pos h1, hf p.2]
    split <;> rfl
  · rw [if_neg h1, hf x, if_neg h1]

theorem foldl_ufStep_idem :
    ∀ (prs : List (Expr × Expr)) (f : Expr → Expr), Idem f →
      Idem (prs.foldl ufStep f) := by
  intro prs
  induction prs with
  | nil => intro f hf; exact hf
  | cons p ps ih => intro f hf; exact ih (ufStep f p) (ufStep_idem hf p)

theorem findFun_idem (prs : List (Expr × Expr)) : Idem (findFun prs) :=
  foldl_ufStep_idem prs id (fun _ => rfl)

theorem union_find_eqv (g : EGraph) (a b : Expr) :
    (g.union a (g.find b)).eqv b a = true := by
  unfold EGraph.union
  by_cases h : g.find a = g.find (g.find b)
  · rw [if_pos h]
    apply decide_eq_true
    show g.find b = g.find a
    rw [h]
    exact (findFun_idem g.unions b).symm
  · rw [if_neg h]
    apply decide_eq_true
    show findFun (g.unions ++ [(a, g.find b)]) b =
         findFun (g.unions ++ [(a, g.find b)]) a
    unfold findFun
    simp only [List.foldl_append, List.foldl_cons, List.foldl_nil]
    show ufStep (findFun g.unions) (a, g.find b) b =
         ufStep (findFun g.unions) (a, g.find b) a
    unfold ufStep
    have hfb : findFun g.unions (g.find b) = findFun g.unions b :=
      findFun_idem g.unions b
    rw [hfb]
    simp

theorem lookup_remove_ne : ∀ (ctx : Context) (k nm : Symbol), nm ≠ k →
    List.lookup nm (Context.remove ctx k) = List.lookup nm ctx := by
  intro ctx
  induction ctx with
  | nil => intro k nm h; rfl
  | cons a as ih =>
    intro k nm h
    obtain ⟨a1, a2⟩ := a
    unfold Context.remove at ih ⊢
    rw [List.filter_cons]
    by_cases hk : a1 = k
    · rw [if_neg (by simp [hk])]
      rw [ih k nm h]
      have hb : (nm == a1) = false := by simp [hk, h]
      simp [List.lookup, hb]
    · rw [if_pos (by simp [hk])]
      by_cases hnm : nm = a1
      · subst hnm
        simp [List.lookup]
      · have hb : (nm == a1) = false := by simp [hnm]
        simp only [List.lookup, hb]
        exact ih k nm h

theorem Context.get_insert_self (ctx : Context) (k : Symbol) (v : Ty) :
    Context.get (ctx.insert k v) k = some v := by
  simp [Context.get, Context.insert, List.lookup]

theorem Context.get_insert_ne (ctx : Context) (k : Symbol) (v : Ty)
    (nm : Symbol) (h : nm ≠ k) :
    Context.get (ctx.insert k v) nm = Context.get ctx nm := by
  unfold Context.insert Context.get
  have hb : (nm == k) = false := by simp [h]
  simp only [List.lookup, hb]
  exact lookup_remove_ne ctx k nm h

theorem splitIteStep_scrutinees (a : Goal) (gid : Expr) :
    (splitIteStep a gid).scrutinees = guardName gid :: a.scrutinees := rfl

theorem foldl_splitIteStep_scrutinees :
    ∀ (guards : List Expr) (a : Goal),
      (guards.foldl splitIteStep a).scrutinees =
        (guards.map guardName).reverse ++ a.scrutinees := by
  intro guards
  induction guards with
  | nil => intro a; simp
  | cons x xs ih =>
    intro a
    rw [List.foldl_cons, ih, splitIteStep_scrutinees]
    simp

theorem splitIteStep_ctx_self (a : Goal) (gid : Expr) :
    Context.get (splitIteStep a gid).local_context (guardName gid) =
      some boolTy :=
  Context.get_insert_self a.local_context (guardName gid) boolTy

theorem splitIteStep_ctx_mono (a : Goal) (gid : Expr) (nm : Symbol)
    (h : Context.get a.local_context nm = some boolTy) :
    Context.get (splitIteStep a gid).local_context nm = some boolTy := by
  by_cases he : nm = guardName gid
  · subst he
    exact splitIteStep_ctx_self a gid
  · unfold splitIteStep
    rw [Context.get_insert_ne _ _ _ _ he]
    exact h

theorem foldl_splitIteStep_ctx_mono :
    ∀ (guards : List Expr) (a : Goal) (nm : Symbol),
      Context.get a.local_context nm = some boolTy →
      Context.get ((guards.foldl splitIteStep a).local_context) nm =
        some boolTy := by
  intro guards
  induction guards with
  | nil => intro a nm h; exact h
  | cons x xs ih =>
    intro a nm h
    exact ih (splitIteStep a x) nm (splitIteStep_ctx_mono a x nm h)

theorem foldl_splitIteStep_ctx :
    ∀ (guards : List Expr) (a : Goal) (gid : Expr), gid ∈ guards →
      Context.get ((guards.foldl splitIteStep a).local_context)
        (guardName gid) = some boolTy := by
  intro guards
  induction guards with
  | nil => intro a gid h; cases h
  | cons x xs ih =>
    intro a gid h
    rcases List.mem_cons.mp h with h2 | h2
    · subst h2
      exact foldl_splitIteStep_ctx_mono xs (splitIteStep a gid)
        (guardName gid) (splitIteStep_ctx_self a gid)
    · exact ih (splitIteStep a x) gid h2

theorem splitIteStep_egraph_extends (a : Goal) (gid : Expr) :
    a.egraph.Extends (splitIteStep a gid).egraph := by
  unfold splitIteStep
  have h1 : a.egraph.Extends (a.egraph.addNode (Expr.leaf (guardName gid))) :=
    ⟨[], by rw [EGraph.addNode_unions]; simp⟩
  exact h1.trans (EGraph.union_extends _ _ _)

theorem eqv_mono {g1 g2 : EGraph} (h : g1.Extends g2) {x y : Expr}
    (he : g1.eqv x y = true) : g2.eqv x y = true := by
  unfold EGraph.eqv at he ⊢
  exact decide_eq_true (EGraph.find_mono h (of_decide_eq_true he))

theorem foldl_splitIteStep_egraph_extends :
    ∀ (guards : List Expr) (a : Goal),
      a.egraph.Extends ((guards.foldl splitIteStep a).egraph) := by
  intro guards
  induction guards with
  | nil => intro a; exact EGraph.Extends.rfl a.egraph
  | cons x xs ih =>
    intro a
    exact (splitIteStep_egraph_extends a x).trans (ih (splitIteStep a x))

theorem splitIteStep_eqv_self (a : Goal) (gid : Expr) :
    (splitIteStep a gid).egraph.eqv (Expr.leaf (guardName gid)) gid = true :=
  union_find_eqv (a.egraph.addNode (Expr.leaf (guardName gid))) gid
    (Expr.leaf (guardName gid))

theorem foldl_splitIteStep_eqv :
    ∀ (guards : List Expr) (a : Goal) (gid : Expr), gid ∈ guards →
      ((guards.foldl splitIteStep a).egraph).eqv
        (Expr.leaf (guardName gid)) gid = true := by
  intro guards
  induction guards with
  | nil => intro a gid h; cases h
  | cons x xs ih =>
    intro a gid h
    rcases List.mem_cons.mp h with h2 | h2
    · subst h2
      exact eqv_mono (foldl_splitIteStep_egraph_extends xs (splitIteStep a gid))
        (splitIteStep_eqv_self a gid)
    · exact ih (splitIteStep a x) gid h2

theorem mem_irreducibleGuards_iff (g : Goal) (gid : Expr)
    (hmem : gid ∈ g.iteGuardIds) :
    gid ∈ g.irreducibleGuards ↔
      ¬ ∃ n ∈ g.egraph.classNodes gid,
          n.op ∈ g.scrutinees ∨ n.op = TRUE ∨ n.op = FALSE := by
  unfold Goal.irreducibleGuards Goal.guardReducible Goal.reducibleSyms
  rw [List.mem_dedup, List.mem_filter]
  simp only [hmem, true_and, decide_eq_true_eq, List.any_eq_true,
    List.mem_append, List.mem_cons, List.mem_singleton, List.elem_iff,
    List.mem_map]
  aesop

/-- C5: an ite-match guard class is reducible exactly when some e-node of
that class has operator true, false, or a current scrutinee; and split_ite
treats each distinct irreducible guard class exactly once, minting the
fresh Boolean variable g-<class_id>, inserting it into the local context
with type Bool, unioning its leaf with the guard class, and pushing it to
the front of the scrutinee queue. -/
theorem C5_theorem (g : Goal) :
    (∀ gid ∈ g.iteGuardIds,
       (gid ∈ g.irreducibleGuards ↔
         ¬ ∃ n ∈ g.egraph.classNodes gid,
             n.op ∈ g.scrutinees ∨ n.op = TRUE ∨ n.op = FALSE)) ∧
    g.irreducibleGuards.Nodup ∧
    (g.split_ite).scrutinees =
      (g.irreducibleGuards.map guardName).reverse ++ g.scrutinees ∧
    (∀ gid ∈ g.irreducibleGuards,
       Context.get (g.split_ite).local_context (guardName gid) =
         some boolTy ∧
       (g.split_ite).egraph.eqv (Expr.leaf (guardName gid)) gid = true) := by
  refine ⟨fun gid hmem => mem_irreducibleGuards_iff g gid hmem,
    List.nodup_dedup _, ?_, ?_⟩
  · show (g.irreducibleGuards.foldl splitIteStep g).scrutinees = _
    exact foldl_splitIteStep_scrutinees _ g
  · intro gid hmem
    exact ⟨foldl_splitIteStep_ctx _ g gid hmem,
      foldl_splitIteStep_eqv _ g gid hmem⟩

/-- C5 witness: the concrete goal with the irreducible guard (p a). -/
theorem C5_witness :
    (Expr.node "p" [Expr.leaf "a"]) ∈ c5goal.irreducibleGuards ∧
    c5goal.split_ite.scrutinees = ["g-(p a)"] ∧
    Context.get c5goal.split_ite.local_context "g-(p a)" = some boolTy ∧
    c5goal.split_ite.egraph.eqv (Expr.leaf "g-(p a)")
      (Expr.node "p" [Expr.leaf "a"]) = true := by
  have h := C5_theorem c5goal
  have hmem : (Expr.node "p" [Expr.leaf "a"]) ∈ c5goal.irreducibleGuards :=
    (h.1 (Expr.node "p" [Expr.leaf "a"]) (by decide)).mpr (by decide)
  refine ⟨hmem, ?_, (h.2.2.2 _ hmem).1, (h.2.2.2 _ hmem).2⟩
  rw [h.2.2.1]
  decide

/-!
Fresh-variable names at case splits (claim C6).
-/

theorem natDigitsAux_ofDig : ∀ (f n : Nat), n ≤ f →
    ofDig (natDigitsAux f n) = n := by
  intro f
  induction f with
  | zero =>
    intro n h
    interval_cases n
    rfl
  | succ f ih =>
    intro n h
    unfold natDigitsAux
    by_cases hn : n = 0
    · simp [hn, ofDig]
    · rw [if_neg hn]
      have hd : n / 10 ≤ f := by
        have := Nat.div_lt_self (Nat.pos_of_ne_zero hn) (by omega : 1 < 10)
        omega
      simp only [ofDig, List.foldr_cons]
      have := ih (n / 10) hd
      unfold ofDig at this
      rw [this]
      omega

theorem natDigits_ofDig (n : Nat) : ofDig (natDigits n) = n := by
  unfold natDigits
  by_cases hn : n = 0
  · simp [hn, ofDig]
  · rw [if_neg hn]
    exact natDigitsAux_ofDig n n (Nat.le_refl n)

theorem natDigits_injective {m n : Nat} (h : natDigits m = natDigits n) :
    m = n := by
  have h1 := natDigits_ofDig m
  rw [h, natDigits_ofDig n] at h1
  exact h1.symm

theorem natDigitsAux_lt10 : ∀ (f n : Nat) (d : Nat),
    d ∈ natDigitsAux f n → d < 10 := by
  intro f
  induction f with
  | zero => intro n d hd; simp [natDigitsAux] at hd
  | succ f ih =>
    intro n d hd
    unfold natDigitsAux at hd
    by_cases hn : n = 0
    · simp [hn] at hd
    · rw [if_neg hn] at hd
      rcases List.mem_cons.mp hd with h | h
      · subst h; exact Nat.mod_lt n (by omega)
      · exact ih (n / 10) d h

theorem natDigits_lt10 (n : Nat) : ∀ d ∈ natDigits n, d < 10 := by
  intro d hd
  unfold natDigits at hd
  by_cases hn : n = 0
  · simp [hn] at hd; omega
  · rw [if_neg hn] at hd
    exact natDigitsAux_lt10 n n d hd

theorem charDigit_digitChar (d : Nat) (h : d < 10) :
    charDigit (digitChar d) = d := by
  interval_cases d <;> rfl

theorem map_digitChar_inj : ∀ (l1 l2 : List Nat),
    (∀ d ∈ l1, d < 10) → (∀ d ∈ l2, d < 10) →
    l1.map digitChar = l2.map digitChar → l1 = l2 := by
  intro l1
  induction l1 with
  | nil =>
    intro l2 _ _ h
    cases l2 with
    | nil => rfl
    | cons b bs => simp at h
  | cons a as ih =>
    intro l2 h1 h2 h
    cases l2 with
    | nil => simp at h
    | cons b bs =>
      simp only [List.map_cons, List.cons.injEq] at h
      obtain ⟨hab, hrest⟩ := h
      have ha : a < 10 := h1 a (List.mem_cons_self _ _)
      have hb : b < 10 := h2 b (List.mem_cons_self _ _)
      have hab2 : a = b := by
        have := congrArg charDigit hab
        rwa [charDigit_digitChar a ha, charDigit_digitChar b hb] at this
      rw [hab2, ih bs (fun d hd => h1 d (List.mem_cons_of_mem _ hd))
        (fun d hd => h2 d (List.mem_cons_of_mem _ hd)) hrest]

theorem natToStr_injective : Function.Injective natToStr := by
  intro m n h
  unfold natToStr at h
  have hdata : ((natDigits m).reverse).map digitChar =
      ((natDigits n).reverse).map digitChar := congrArg String.data h
  have hrev : (natDigits m).reverse = (natDigits n).reverse :=
    map_digitChar_inj _ _
      (fun d hd => natDigits_lt10 m d (List.mem_reverse.mp hd))
      (fun d hd => natDigits_lt10 n d (List.mem_reverse.mp hd)) hdata
  exact natDigits_injective (List.reverse_injective hrev)

theorem freshVarName_injective (var : Symbol) (size : Nat) :
    Function.Injective (fun i => freshVarName var size i) := by
  intro i j h
  unfold freshVarName at h
  have hdata := congrArg String.data h
  simp only [String.data_append] at hdata
  have h2 : (natToStr i).data = (natToStr j).data :=
    List.append_cancel_left hdata
  have h3 : natToStr i = natToStr j := by
    cases hi : natToStr i with
    | mk di =>
      cases hj : natToStr j with
      | mk dj =>
        rw [hi, hj] at h2
        simp only [] at h2
        rw [h2]
  exact natToStr_injective h3

/-- C6 counterexample: for the datatype D with two unary constructors, the
two sibling subgoals produced by the split on x both mint the same fresh
variable name x-20 (the parent e-graph, read unmodified, has total size 2
for either sibling), so the fresh names are not pairwise distinct across
sibling subgoals. -/
theorem C6_counterexample :
    c6goal.case_split.map (fun cs => cs.map Goal.scrutinees) =
      some [["x-20"], ["x-20"]] ∧
    c6goal.case_split.map
      (fun cs => cs.map (fun c => Context.get c.local_context "x-20")) =
      some [some dTy, some dTy] ∧
    Env.get c6env "D" = some ["A", "B"] :=
  ⟨by decide, by decide, by decide⟩

/-- C6 amended: each fresh variable minted for a constructor argument is
named <v>-<total_egraph_size><i>, and within one child subgoal the minted
names are pairwise distinct; across sibling subgoals the same names recur
for equal argument positions, since the total size is read from the
unmodified parent e-graph. -/
theorem C6_amended_theorem (var : Symbol) (size argc : Nat) :
    (∀ i : Nat, freshVarName var size i =
      var ++ "-" ++ natToStr size ++ natToStr i) ∧
    ((List.range argc).map (fun i => freshVarName var size i)).Nodup :=
  ⟨fun _ => rfl,
   (List.nodup_range argc).map (freshVarName_injective var size)⟩

end Cyclegg
